import Mathlib

/-!
Shallow embedding, in Lean 4, of the trading code in `notebooks/strategy.py`
(class `StrategyLearner`) and `notebooks/marketsim.py`
(`compute_portvals_single_symbol`), together with theorems checking the
natural-language specification against it.

Conventions used throughout:
* Prices, indicator values and cash amounts are rationals (`ℚ`); Python
  integers are `ℤ` (or `ℕ` for indices and counts).
* Trading dates are positions `ℕ` in a calendar-aligned price series
  `prices : ℕ → ℚ` (position `d` = the `d`-th row of the price frame).
* Fallible Python code (`IndexError`, `ZeroDivisionError`, `ValueError`) is
  embedded with `Option`: `none` models a raised exception.
* A feature dataframe is a row-major `List (List ℚ)`; a threshold table is a
  `List (List ℚ)` with one row per feature, as in the numpy array `thres`.
* The Q-learning agent (`QLearner.py` is not part of the sources) is an
  opaque stateful collaborator: a function
  `act : σ → state → reward → update → done → action × σ` over an arbitrary
  agent-state type `σ`, matching the call signature used by `strategy.py`.
-/

namespace RLCourse

/-! ### Generic list helpers used by the embedding -/

/-- Collects a list of optional values: `some` of the list of values when all
are present, otherwise `none` (a Python loop that can raise at any step). -/
def allSome {α : Type} : List (Option α) → Option (List α)
  | [] => some []
  | o :: os =>
    match o with
    | none => none
    | some a => (allSome os).map (a :: ·)

/-- Index of the first element satisfying `p`, if any. -/
def findFirst {α : Type} (p : α → Bool) : List α → Option ℕ
  | [] => none
  | t :: ts => if p t then some 0 else (findFirst p ts).map (· + 1)

/-- First element of the list that is `≥ v`, if any.  This is the value
`row[row >= v][0]` of a boolean-mask filter followed by `[0]` in numpy;
`none` models the `IndexError` on an empty selection. -/
def firstGEVal (v : ℚ) : List ℚ → Option ℚ
  | [] => none
  | t :: ts => if v ≤ t then some t else firstGEVal v ts

/-! ### `strategy.py`: constants and pure functions of `StrategyLearner` -/

/-- Position constant `StrategyLearner.LONG`. -/
def LONG : ℤ := 1

/-- Position constant `StrategyLearner.CASH`. -/
def CASH : ℤ := 0

/-- Position constant `StrategyLearner.SHORT`. -/
def SHORT : ℤ := -1

/-- `StrategyLearner.get_position`: the position/order state machine.
Mirrors: `new_pos = CASH; if old_pos < LONG and signal == LONG: new_pos =
LONG; elif old_pos > SHORT and signal == SHORT: new_pos = SHORT`. -/
def get_position (old_pos signal : ℤ) : ℤ :=
  if old_pos < LONG ∧ signal = LONG then LONG
  else if SHORT < old_pos ∧ signal = SHORT then SHORT
  else CASH

/-- `StrategyLearner.get_daily_reward`:
`position * ((curr_price / prev_price) - 1)`. -/
def get_daily_reward (prev_price curr_price : ℚ) (position : ℤ) : ℚ :=
  (position : ℚ) * (curr_price / prev_price - 1)

/-- Python 3 `round(n / k)` for natural `n`, `k`: the true quotient rounded
to the nearest integer, ties to even (banker's rounding).  Only used with
`k ≠ 0`; `round(n / 0)` raises and is guarded at the call site. -/
def pyRound (n k : ℕ) : ℕ :=
  let q := n / k
  let r := n % k
  if 2 * r < k then q
  else if k < 2 * r then q + 1
  else if q % 2 = 0 then q else q + 1

/-- One column of `StrategyLearner.get_thresholds`: sort the feature's
values ascending, then for each `step` record `sorted[(step+1)*step_size]`
(`none` models the `IndexError` when that position is out of range), except
the last step which records `sorted.iloc[-1]`, the largest value. -/
def colThresholds (num_steps step_size : ℕ) (col : List ℚ) : Option (List ℚ) :=
  let sorted := col.insertionSort (· ≤ ·)
  allSome ((List.range num_steps).map (fun step =>
    if step < num_steps - 1 then sorted[(step + 1) * step_size]?
    else sorted[sorted.length - 1]?))

/-- `StrategyLearner.get_thresholds` on a dataframe given as a list of
feature columns, with `n = df_features.shape[0]` the (shared) column
length.  `step_size = round(n / num_steps)`; `num_steps = 0` raises
`ZeroDivisionError` in `round`, modelled as `none`. -/
def get_thresholds (cols : List (List ℚ)) (num_steps n : ℕ) :
    Option (List (List ℚ)) :=
  if num_steps = 0 then none
  else allSome (cols.map (colThresholds num_steps (pyRound n num_steps)))

/-- Column index of the first occurrence, in row-major order over the whole
2-d threshold array, of the value `v`: this is `np.where(thresholds ==
thres)[1][0]` in `discretize`.  Note it scans all rows, not only the row
the value was selected from. -/
def whereCol (thresholds : List (List ℚ)) (v : ℚ) : Option ℕ :=
  match thresholds with
  | [] => none
  | row :: rest =>
    match findFirst (fun t => t == v) row with
    | some j => some j
    | none => whereCol rest v

/-- The loop of `StrategyLearner.discretize`: for feature `i` (starting at
the given index) select `thresholds[i][thresholds[i] >= value][0]` and then
its column `np.where(thresholds == thres)[1][0]`; `none` models the
`IndexError` when a value exceeds every threshold of its row (or a missing
row). -/
def binCols (thresholds : List (List ℚ)) : List ℚ → ℕ → Option (List ℕ)
  | [], _ => some []
  | v :: vs, i =>
    match thresholds[i]? with
    | none => none
    | some row =>
      match firstGEVal v row with
      | none => none
      | some thres =>
        match whereCol thresholds thres with
        | none => none
        | some col =>
          match binCols thresholds vs (i + 1) with
          | none => none
          | some cols => some (col :: cols)

/-- Mixed-radix accumulation `Σ_i cols_i * num_steps ^ i` of the loop
`state += thres_i * pow(self.num_steps, i)`, written in Horner form. -/
def radixSum (num_steps : ℕ) : List ℕ → ℕ
  | [] => 0
  | c :: cs => c + num_steps * radixSum num_steps cs

/-- `StrategyLearner.discretize`: state
`non_neg_position * num_steps ^ len(df_features) + Σ_i thres_i * num_steps ^ i`
with the column indices of `binCols`; `none` models a raised
`IndexError`. -/
def discretize (num_steps : ℕ) (df_features : List ℚ) (non_neg_position : ℤ)
    (thresholds : List (List ℚ)) : Option ℤ :=
  (binCols thresholds df_features 0).map
    (fun cols => non_neg_position * (num_steps : ℤ) ^ df_features.length +
      (radixSum num_steps cols : ℤ))

/-! ### `strategy.py`: `has_converged` -/

/-- Python slice `l[-p:]`: for `p = 0` this is `l[0:] = l` (since `-0 = 0`),
otherwise the last `min p (length l)` elements. -/
def pyTailSlice (p : ℕ) (l : List ℚ) : List ℚ :=
  if p = 0 then l else l.drop (l.length - p)

/-- Python `len(set(l)) == 1`: the list is non-empty and all its elements
are equal. -/
def allSame : List ℚ → Bool
  | [] => false
  | x :: xs => xs.all (fun y => y == x)

/-- Python `max(l)`: `none` models the `ValueError` on an empty sequence. -/
def pyMax : List ℚ → Option ℚ
  | [] => none
  | x :: xs => some (xs.foldl max x)

/-- `StrategyLearner.has_converged`.  `none` models the `ValueError` raised
by `max` on an empty list (reachable only for `patience = 0` with an empty
input, since `patience > len` already returned `False`). -/
def has_converged (cum_returns : List ℚ) (patience : ℕ) : Option Bool :=
  if cum_returns.length < patience then some false
  else
    let latest := pyTailSlice patience cum_returns
    if allSame latest then some true
    else
      match pyMax cum_returns with
      | none => none
      | some max_return =>
        if latest.any (fun x => x == max_return) then
          if ¬ ((cum_returns.take (cum_returns.length - patience)).any
              (fun x => x == max_return)) then some false
          else some true
        else some true

/-! ### `strategy.py`: the training and testing walks

`add_evidence` and `test_policy` walk the feature index date-by-date.  The
features come from `get_features`, whose indicator helpers
(`indicators.py`) are not part of the sources.  Modelled from the spec:
`get_features` computes three rolling-window indicators that are `NaN` for
the first `window − 1` rows and drops those rows, so feature row `day` is
aligned with price row `day + offset` (`offset = window − 1 = 9` for the
fixed `window_size = 10`); the walks below keep `offset` as an explicit
parameter.  `df_prices[symbol].loc[date]` is therefore `prices (offset +
day)` while `df_prices[symbol].iloc[day - 1]` is `prices (day - 1)`. -/

/-- One day of a walk, recording the quantities named in the source:
the discretized `state`, the `reward` passed to the agent (`0` on the first
day, where the agent is queried with reward `0.0`), the `signal = action -
1`, the recorded order `new_pos`, and the running position before and after
`position += new_pos`. -/
structure DayRec where
  state : ℤ
  reward : ℚ
  signal : ℤ
  order : ℤ
  posBefore : ℤ
  posAfter : ℤ
deriving DecidableEq

/-- One day of the `add_evidence` loop after the state has been
discretized: on day `0` the agent is queried with reward `0.0` and no
update; on later days the reward is `get_daily_reward(prices.iloc[day-1],
prices.loc[date], position)` with `update=True` and `done` on the last day;
the order is the forced `-position` on the last day and
`get_position(position, action - 1)` otherwise; the new position is
`position + order` (the `position += new_pos` line).  Returns the day
record and the agent's new internal state. -/
def trainStep {σ : Type} (act : σ → ℤ → ℚ → Bool → Bool → ℤ × σ)
    (prices : ℕ → ℚ) (offset T day : ℕ) (position : ℤ) (s : σ) (state : ℤ) :
    DayRec × σ :=
  let reward : ℚ :=
    if day = 0 then 0
    else get_daily_reward (prices (day - 1)) (prices (offset + day)) position
  let acted : ℤ × σ :=
    if day = 0 then act s state 0 false false
    else act s state reward true (decide (day = T - 1))
  let signal : ℤ := acted.1 - 1
  let order : ℤ :=
    if day = T - 1 then -position else get_position position signal
  (⟨state, reward, signal, order, position, position + order⟩, acted.2)

/-- The inner day loop of `add_evidence` for one epoch.  `T` is the number
of feature rows; `day` the current index; `none` models an uncaught
exception from `discretize`. -/
def trainWalkGo {σ : Type} (num_steps : ℕ) (act : σ → ℤ → ℚ → Bool → Bool → ℤ × σ)
    (thresholds : List (List ℚ)) (prices : ℕ → ℚ) (offset T : ℕ) :
    List (List ℚ) → ℕ → ℤ → σ → Option (List DayRec)
  | [], _, _, _ => some []
  | fv :: rest, day, position, s =>
    match discretize num_steps fv (position + 1) thresholds with
    | none => none
    | some state =>
      match trainWalkGo num_steps act thresholds prices offset T rest (day + 1)
          (trainStep act prices offset T day position s state).1.posAfter
          (trainStep act prices offset T day position s state).2 with
      | none => none
      | some recs =>
        some ((trainStep act prices offset T day position s state).1 :: recs)

/-- One training epoch of `StrategyLearner.add_evidence`: compute the
thresholds from this walk's own features (lines 190–191), then run the day
loop starting from `position = CASH`.  Returns the threshold table used and
the per-day records. -/
def add_evidence_walk {σ : Type} (num_steps : ℕ)
    (act : σ → ℤ → ℚ → Bool → Bool → ℤ × σ) (df_features : List (List ℚ))
    (prices : ℕ → ℚ) (offset : ℕ) (s0 : σ) :
    Option (List (List ℚ) × List DayRec) :=
  match get_thresholds df_features.transpose num_steps df_features.length with
  | none => none
  | some thresholds =>
    (trainWalkGo num_steps act thresholds prices offset df_features.length
        df_features 0 CASH s0).map (fun recs => (thresholds, recs))

/-- One day of the `test_policy` loop after discretization: the agent is
queried with reward `0.0` and `update=False`; the order is the forced
`-position` on the last day and `get_position(position, action - 1)`
otherwise; the new position is `position + order`. -/
def testStep {σ : Type} (act : σ → ℤ → ℚ → Bool → Bool → ℤ × σ)
    (T day : ℕ) (position : ℤ) (s : σ) (state : ℤ) : DayRec × σ :=
  let acted : ℤ × σ := act s state 0 false false
  let signal : ℤ := acted.1 - 1
  let order : ℤ :=
    if day = T - 1 then -position else get_position position signal
  (⟨state, 0, signal, order, position, position + order⟩, acted.2)

/-- The day loop of `test_policy`: the agent is queried with reward `0.0`
and `update=False` every day. -/
def testWalkGo {σ : Type} (num_steps : ℕ) (act : σ → ℤ → ℚ → Bool → Bool → ℤ × σ)
    (thresholds : List (List ℚ)) (T : ℕ) :
    List (List ℚ) → ℕ → ℤ → σ → Option (List DayRec)
  | [], _, _, _ => some []
  | fv :: rest, day, position, s =>
    match discretize num_steps fv (position + 1) thresholds with
    | none => none
    | some state =>
      match testWalkGo num_steps act thresholds T rest (day + 1)
          (testStep act T day position s state).1.posAfter
          (testStep act T day position s state).2 with
      | none => none
      | some recs =>
        some ((testStep act T day position s state).1 :: recs)

/-- `StrategyLearner.test_policy`: compute thresholds from this (testing)
walk's own features (lines 271–272), then run the day loop from
`position = CASH`.  Returns the threshold table used and the day records. -/
def test_policy_walk {σ : Type} (num_steps : ℕ)
    (act : σ → ℤ → ℚ → Bool → Bool → ℤ × σ) (df_features : List (List ℚ))
    (s0 : σ) : Option (List (List ℚ) × List DayRec) :=
  match get_thresholds df_features.transpose num_steps df_features.length with
  | none => none
  | some thresholds =>
    (testWalkGo num_steps act thresholds df_features.length df_features 0 CASH
        s0).map (fun recs => (thresholds, recs))

/-! ### `marketsim.py`: `compute_portvals_single_symbol` -/

/-- Order of orders by date, used by `df_orders.sort_index(ascending=True)`. -/
def dateLe (a b : ℕ × ℤ) : Prop := a.1 ≤ b.1

instance : DecidableRel dateLe := fun a b => inferInstanceAs (Decidable (a.1 ≤ b.1))

instance : IsTotal (ℕ × ℤ) dateLe := ⟨fun a b => Nat.le_total a.1 b.1⟩

instance : IsTrans (ℕ × ℤ) dateLe := ⟨fun _ _ _ h h' => Nat.le_trans h h'⟩

/-- One iteration of the `df_orders.iterrows()` loop: the accumulator holds
the running `df_trades` columns for the symbol and for cash, as functions of
the date.  `traded_share_value = price * shares`, `transaction_cost =
commission + impact * price * |shares|`; a buy or a sell adds the share
delta and subtracts value and cost from cash at that date; a zero-share
order changes nothing. -/
def tradeStep (price : ℕ → ℚ) (commission impact : ℚ)
    (acc : (ℕ → ℚ) × (ℕ → ℚ)) (ord : ℕ × ℤ) : (ℕ → ℚ) × (ℕ → ℚ) :=
  let traded_share_value : ℚ := price ord.1 * (ord.2 : ℚ)
  let transaction_cost : ℚ := commission + impact * price ord.1 * |(ord.2 : ℚ)|
  if 0 < ord.2 then
    (fun d => if d = ord.1 then acc.1 d + (ord.2 : ℚ) else acc.1 d,
     fun d => if d = ord.1 then acc.2 d - traded_share_value - transaction_cost
       else acc.2 d)
  else if ord.2 < 0 then
    (fun d => if d = ord.1 then acc.1 d + (ord.2 : ℚ) else acc.1 d,
     fun d => if d = ord.1 then acc.2 d - traded_share_value - transaction_cost
       else acc.2 d)
  else acc

/-- The `df_trades` frame as a pair of columns (symbol shares, cash delta),
accumulated over all orders starting from all-zero columns. -/
def build_trades (price : ℕ → ℚ) (commission impact : ℚ)
    (orders : List (ℕ × ℤ)) : (ℕ → ℚ) × (ℕ → ℚ) :=
  orders.foldl (tradeStep price commission impact) (fun _ => 0, fun _ => 0)

/-- The shares column of `df_holdings`: row `0` equals the trades row `0`,
later rows are cumulative. -/
def holdingsShares (tradeShares : ℕ → ℚ) : ℕ → ℚ
  | 0 => tradeShares 0
  | t + 1 => holdingsShares tradeShares t + tradeShares (t + 1)

/-- The cash column of `df_holdings`: row `0` is the trades row `0` plus
`start_val`, later rows are cumulative. -/
def holdingsCash (start_val : ℚ) (tradeCash : ℕ → ℚ) : ℕ → ℚ
  | 0 => tradeCash 0 + start_val
  | t + 1 => holdingsCash start_val tradeCash t + tradeCash (t + 1)

/-- Result of `compute_portvals_single_symbol`: the caller's order frame
after the in-place `sort_index` (the function mutates its argument), the
intermediate `df_trades` and `df_holdings` columns, and the portfolio value
series `df_value.sum(axis=1) = price * shares + 1 * cash`. -/
structure PortvalsResult where
  df_orders : List (ℕ × ℤ)
  tradeShares : ℕ → ℚ
  tradeCash : ℕ → ℚ
  holdShares : ℕ → ℚ
  holdCash : ℕ → ℚ
  portvals : ℕ → ℚ

/-- `compute_portvals_single_symbol` from `marketsim.py`.  `price` is the
calendar-aligned adjusted-close series (the synthetic cash instrument is
priced at `1.0`, folded into `portvals`); mutation of the `df_orders`
argument is made explicit by returning the sorted frame. -/
def compute_portvals_single_symbol (price : ℕ → ℚ)
    (start_val commission impact : ℚ) (df_orders : List (ℕ × ℤ)) :
    PortvalsResult :=
  let sorted := List.insertionSort dateLe df_orders
  let trades := build_trades price commission impact sorted
  { df_orders := sorted
    tradeShares := trades.1
    tradeCash := trades.2
    holdShares := holdingsShares trades.1
    holdCash := holdingsCash start_val trades.2
    portvals := fun t =>
      price t * holdingsShares trades.1 t + holdingsCash start_val trades.2 t }

/-! ### Definitions following the specification's wording

These definitions follow the words of spec sentences (not the source); they
are used to state claims against the source embedding above. -/

/-- The last `p` entries of a list of cumulative returns, as the spec
phrase "the last `patience` values" reads. -/
def lastEntries (p : ℕ) (l : List ℚ) : List ℚ := l.drop (l.length - p)

/-- All entries of the list are identical (spec wording "are all
identical"). -/
def allIdentical (l : List ℚ) : Prop := ∀ x ∈ l, ∀ y ∈ l, x = y

instance (l : List ℚ) : Decidable (allIdentical l) := by
  unfold allIdentical; infer_instance

/-- Mixed-radix decoding of the feature digits of a state, radix
`num_steps`, least-significant digit first — the spec's "decoding the
returned state". -/
def decodeBins (ns : ℕ) : ℕ → ℤ → List ℕ
  | 0, _ => []
  | k + 1, s => (s % (ns : ℤ)).toNat :: decodeBins ns k (s / (ns : ℤ))

/-- Full decoding of a state with `k` feature digits: the position code is
the most significant digit `s / ns ^ k`, the bins are `decodeBins`. -/
def decodeState (ns k : ℕ) (s : ℤ) : ℤ × List ℕ :=
  (s / (ns : ℤ) ^ k, decodeBins ns k s)

/-! ### Concrete agents used for counterexamples and witnesses -/

/-- Agent that buys on the first (no-update) query and holds afterwards. -/
def actC1 : Unit → ℤ → ℚ → Bool → Bool → ℤ × Unit :=
  fun _ _ _ update _ => (if update then 0 else 2, ())

/-- Agent that buys when queried from the cash state and sells otherwise. -/
def actC3 : Unit → ℤ → ℚ → Bool → Bool → ℤ × Unit :=
  fun _ state _ _ _ => (if state = 1 then 2 else 0, ())

/-- Agent that always answers the hold action `1`. -/
def actC6 : Unit → ℤ → ℚ → Bool → Bool → ℤ × Unit := fun _ _ _ _ _ => (1, ())

/-- Agent that always answers the buy action `2`. -/
def actC8 : Unit → ℤ → ℚ → Bool → Bool → ℤ × Unit := fun _ _ _ _ _ => (2, ())

/-! ## Helper lemmas -/

lemma allSome_map_of_forall {α β : Type} (f : α → Option β) (g : α → β) :
    ∀ l : List α, (∀ a ∈ l, f a = some (g a)) → allSome (l.map f) = some (l.map g) := by
  intro l h
  induction l with
  | nil => rfl
  | cons a l ih =>
    have h1 : f a = some (g a) := h a (List.mem_cons_self a l)
    have h2 := ih (fun x hx => h x (List.mem_cons_of_mem a hx))
    simp only [List.map_cons, allSome, h1, h2, Option.map_some']

lemma findFirst_some_lt {α : Type} (p : α → Bool) :
    ∀ (l : List α) (j : ℕ), findFirst p l = some j → j < l.length := by
  intro l
  induction l with
  | nil => intro j h; simp [findFirst] at h
  | cons t ts ih =>
    intro j h
    simp only [findFirst] at h
    by_cases hpt : p t
    · rw [if_pos hpt] at h
      injection h with h
      simp [← h]
    · rw [if_neg hpt, Option.map_eq_some'] at h
      obtain ⟨j2, hj2, rfl⟩ := h
      have := ih j2 hj2
      simp only [List.length_cons]
      omega

lemma findFirst_beq_some_of_mem (v : ℚ) :
    ∀ row : List ℚ, v ∈ row → ∃ j, findFirst (fun t => t == v) row = some j := by
  intro row
  induction row with
  | nil => intro h; simp at h
  | cons t ts ih =>
    intro h
    by_cases htv : (t == v) = true
    · exact ⟨0, by simp [findFirst, htv]⟩
    · have hvts : v ∈ ts := by
        rcases List.mem_cons.mp h with rfl | hm
        · simp at htv
        · exact hm
      obtain ⟨j, hj⟩ := ih hvts
      exact ⟨j + 1, by simp [findFirst, htv, hj]⟩

lemma firstGEVal_spec (v : ℚ) :
    ∀ row : List ℚ, (∃ t ∈ row, v ≤ t) →
      ∃ u, firstGEVal v row = some u ∧ u ∈ row ∧ v ≤ u := by
  intro row
  induction row with
  | nil => intro h; simp at h
  | cons t ts ih =>
    intro h
    by_cases hvt : v ≤ t
    · exact ⟨t, by simp [firstGEVal, hvt], List.mem_cons_self t ts, hvt⟩
    · obtain ⟨u, hu, humem, huv⟩ : ∃ u, firstGEVal v ts = some u ∧ u ∈ ts ∧ v ≤ u := by
        apply ih
        obtain ⟨t2, ht2, hvt2⟩ := h
        rcases List.mem_cons.mp ht2 with rfl | hm
        · exact absurd hvt2 hvt
        · exact ⟨t2, hm, hvt2⟩
      exact ⟨u, by simp [firstGEVal, hvt, hu], List.mem_cons_of_mem t humem, huv⟩

lemma whereCol_spec :
    ∀ (thr : List (List ℚ)) (row : List ℚ) (u : ℚ), row ∈ thr → u ∈ row →
      ∃ c, whereCol thr u = some c ∧ ∃ row2 ∈ thr, c < row2.length := by
  intro thr
  induction thr with
  | nil => intro row u h; simp at h
  | cons row0 rest ih =>
    intro row u hrow hu
    rcases hfind : findFirst (fun t => t == u) row0 with _ | j
    · have hrow2 : row ∈ rest := by
        rcases List.mem_cons.mp hrow with rfl | hm
        · obtain ⟨j, hj⟩ := findFirst_beq_some_of_mem u row hu
          rw [hj] at hfind; cases hfind
        · exact hm
      obtain ⟨c, hc, row2, hrow2m, hlen⟩ := ih row u hrow2 hu
      exact ⟨c, by simp [whereCol, hfind, hc], row2,
        List.mem_cons_of_mem row0 hrow2m, hlen⟩
    · exact ⟨j, by simp [whereCol, hfind], row0, List.mem_cons_self row0 rest,
        findFirst_some_lt _ row0 j hfind⟩

lemma foldl_max_mem : ∀ (xs : List ℚ) (x : ℚ), xs.foldl max x ∈ x :: xs := by
  intro xs
  induction xs with
  | nil => intro x; simp
  | cons y ys ih =>
    intro x
    rcases max_choice x y with hm | hm
    · rw [List.foldl_cons, hm]
      rcases List.mem_cons.mp (ih x) with h2 | h2
      · simp [h2]
      · simp [List.mem_cons, h2]
    · rw [List.foldl_cons, hm]
      rcases List.mem_cons.mp (ih y) with h2 | h2
      · simp [h2]
      · simp [List.mem_cons, h2]

lemma allSame_of_allIdentical :
    ∀ l : List ℚ, l ≠ [] → allIdentical l → allSame l = true := by
  intro l hne hid
  cases l with
  | nil => exact absurd rfl hne
  | cons x xs =>
    simp only [allSame, List.all_eq_true, beq_iff_eq]
    intro y hy
    exact hid y (List.mem_cons_of_mem x hy) x (List.mem_cons_self x xs)

/-! ## C9: `has_converged` -/

/-- C9 (counterexample to the claim as stated): with `patience = 0` and an
empty cumulative-return list, the list has at least `patience` entries and
its last `patience` entries are (vacuously) all identical, yet
`has_converged` does not return `True`: it raises `ValueError` in `max([])`
(modelled as `none`). -/
theorem C9_counterexample :
    (0 : ℕ) ≤ ([] : List ℚ).length ∧ allIdentical (lastEntries 0 ([] : List ℚ)) ∧
    has_converged [] 0 = none ∧ has_converged [] 0 ≠ some true := by decide

/-- C9 (amended): `has_converged` returns `False` whenever the list has
fewer than `patience` entries; and returns `True` whenever the list is
non-empty, has at least `patience` entries, and its last `patience` entries
are all identical.  (Non-emptiness is forced by the counterexample: for
`patience = 0` on an empty list, Python raises `ValueError` in `max([])`.) -/
theorem C9_has_converged (cum_returns : List ℚ) (patience : ℕ) :
    (cum_returns.length < patience → has_converged cum_returns patience = some false) ∧
    (patience ≤ cum_returns.length → cum_returns ≠ [] →
      allIdentical (lastEntries patience cum_returns) →
      has_converged cum_returns patience = some true) := by
  constructor
  · intro h
    rw [has_converged, if_pos h]
  · intro hlen hne hid
    rw [has_converged, if_neg (by omega)]
    by_cases hp : patience = 0
    · subst hp
      simp only [pyTailSlice, eq_self_iff_true, if_true]
      by_cases hall : allSame cum_returns
      · rw [if_pos hall]
      · rw [if_neg hall]
        obtain ⟨x, xs, rfl⟩ := List.exists_cons_of_ne_nil hne
        simp only [pyMax]
        have hmem : xs.foldl max x ∈ x :: xs := foldl_max_mem xs x
        have hany : ((x :: xs).any (fun v => v == xs.foldl max x)) = true := by
          simp only [List.any_eq_true, beq_iff_eq]
          exact ⟨xs.foldl max x, hmem, rfl⟩
        rw [if_pos hany]
        have htake : ((x :: xs).take ((x :: xs).length - 0)).any
            (fun v => v == xs.foldl max x) = true := by
          rw [Nat.sub_zero, List.take_length]
          exact hany
        rw [if_neg (not_not_intro htake)]
    · have hlat : pyTailSlice patience cum_returns = lastEntries patience cum_returns := by
        simp [pyTailSlice, lastEntries, hp]
      have hlatlen : (lastEntries patience cum_returns).length = patience := by
        simp only [lastEntries, List.length_drop]
        omega
      have hlatne : lastEntries patience cum_returns ≠ [] := by
        intro h0
        rw [h0] at hlatlen
        simp at hlatlen
        omega
      have hall : allSame (pyTailSlice patience cum_returns) = true := by
        rw [hlat]
        exact allSame_of_allIdentical _ hlatne hid
      rw [if_pos hall]

/-- C9 (witness): the amended theorem applied at concrete inputs:
`[2, 1, 1]` with `patience = 2` converges (last two entries identical),
`[1]` with `patience = 2` does not (too few entries). -/
theorem C9_witness :
    has_converged [2, 1, 1] 2 = some true ∧ has_converged [1] 2 = some false :=
  ⟨(C9_has_converged [2, 1, 1] 2).2 (by decide) (by decide) (by decide),
   (C9_has_converged [1] 2).1 (by decide)⟩

/-! ## C7: `discretize` on a value above the top threshold -/

/-- C7: a feature value strictly above every threshold of its row (an
out-of-sample value above the training maximum) makes `discretize` raise
`IndexError` on the empty selection `thresholds[i][thresholds[i] >= v]`
(modelled as `none`), instead of clamping into the top bin as the claim
states. -/
theorem C7_discretize_raises_out_of_range :
    (∀ t ∈ [(1 : ℚ), 2], t < 3) ∧ discretize 2 [3] 0 [[1, 2]] = none := by decide

/-! ## C1: the reward passed to the agent in `add_evidence` -/

/-- C1: at a concrete input, the reward recorded on day 1 of the training
walk is `10`, computed by the source from `prev_price =
df_prices.iloc[day - 1] = prices 0 = 1` — the first row of the full price
frame, not the trading day preceding the date.  The claimed daily reward
`position * (price[t] / price[t-1] - 1)` from the immediately preceding
trading day (price row `offset + 1 - 1 = 9`) is `1/10 ≠ 10`.  (Features
start at price row `offset = 9`, per the spec: the first `window - 1 = 9`
indicator rows are `NaN` and dropped.) -/
theorem C1_reward_misalignment :
    add_evidence_walk 1 actC1 [[0], [0]] (fun d => (d : ℚ) + 1) 9 () =
      some ([[0]], [⟨1, 0, 1, 1, 0, 1⟩, ⟨2, 10, -1, -1, 1, 0⟩]) ∧
    get_daily_reward ((fun d => (d : ℚ) + 1) 9) ((fun d => (d : ℚ) + 1) 10) 1 = 1 / 10 ∧
    (10 : ℚ) ≠ 1 / 10 := by
  refine ⟨?_, ?_, by norm_num⟩
  · norm_num [add_evidence_walk, trainWalkGo, trainStep, get_thresholds, colThresholds, allSome,
      pyRound, discretize, binCols, firstGEVal, whereCol, findFirst, radixSum,
      get_daily_reward, get_position, actC1, LONG, CASH, SHORT, List.transpose,
      List.insertionSort, List.orderedInsert]
  · norm_num [get_daily_reward]

/-! ## C3 and C6: counterexamples -/

/-- C3 (counterexample): on day 1 of this three-day training walk the
position entering the day is `LONG = 1` (not `SHORT`) and the signal is
`SHORT = -1`, so the claimed state-machine table demands the new position
`SHORT`; but the code records the order `new_pos = -1` and then runs
`position += new_pos`, leaving the position `0 = CASH ≠ SHORT`. -/
theorem C3_counterexample :
    add_evidence_walk 1 actC3 [[0], [0], [0]] (fun _ => (1 : ℚ)) 9 () =
      some ([[0]], [⟨1, 0, 1, 1, 0, 1⟩, ⟨2, 0, -1, -1, 1, 0⟩, ⟨1, 0, 1, 0, 0, 0⟩]) ∧
    SHORT < (1 : ℤ) ∧ (-1 : ℤ) = SHORT ∧ (0 : ℤ) ≠ SHORT := by
  refine ⟨?_, by decide, by decide, by decide⟩
  norm_num [add_evidence_walk, trainWalkGo, trainStep, get_thresholds, colThresholds, allSome,
    pyRound, discretize, binCols, firstGEVal, whereCol, findFirst, radixSum,
    get_daily_reward, get_position, actC3, LONG, CASH, SHORT, List.transpose,
    List.insertionSort, List.orderedInsert]

/-- C6 (counterexample): a testing walk whose features are `[[1]]` uses the
threshold table `[[1]]` computed by `get_thresholds` from its own
(test-period) features; a training period with features `[[0]]` yields the
different table `[[0]]`, so the table used by `test_policy` is not the
training-period one. -/
theorem C6_counterexample :
    test_policy_walk 1 actC6 [[1]] () = some ([[1]], [⟨1, 0, 0, 0, 0, 0⟩]) ∧
    get_thresholds (List.transpose [[(0 : ℚ)]]) 1 1 = some [[0]] ∧
    [[(1 : ℚ)]] ≠ [[(0 : ℚ)]] := by decide

/-! ## C4 and C10: the market simulator -/

lemma tradeStep_fst (price : ℕ → ℚ) (c i : ℚ) (acc : (ℕ → ℚ) × (ℕ → ℚ))
    (o : ℕ × ℤ) (d : ℕ) :
    (tradeStep price c i acc o).1 d =
      acc.1 d + (if d = o.1 then (o.2 : ℚ) else 0) := by
  simp only [tradeStep]
  by_cases h1 : 0 < o.2
  · rw [if_pos h1]
    by_cases h2 : d = o.1 <;> simp [h2]
  · rw [if_neg h1]
    by_cases h3 : o.2 < 0
    · rw [if_pos h3]
      by_cases h2 : d = o.1 <;> simp [h2]
    · rw [if_neg h3]
      have h0 : o.2 = 0 := by omega
      by_cases h2 : d = o.1 <;> simp [h2, h0]

lemma tradeStep_snd (price : ℕ → ℚ) (c i : ℚ) (acc : (ℕ → ℚ) × (ℕ → ℚ))
    (o : ℕ × ℤ) (d : ℕ) :
    (tradeStep price c i acc o).2 d =
      acc.2 d + (if d = o.1 ∧ o.2 ≠ 0 then
        -(price o.1 * (o.2 : ℚ) + (c + i * price o.1 * |(o.2 : ℚ)|)) else 0) := by
  simp only [tradeStep]
  by_cases h1 : 0 < o.2
  · rw [if_pos h1]
    by_cases h2 : d = o.1
    · rw [if_pos ⟨h2, by omega⟩]
      simp only [h2, eq_self_iff_true, if_true]
      ring
    · rw [if_neg (fun hh => h2 hh.1)]
      simp [h2]
  · rw [if_neg h1]
    by_cases h3 : o.2 < 0
    · rw [if_pos h3]
      by_cases h2 : d = o.1
      · rw [if_pos ⟨h2, by omega⟩]
        simp only [h2, eq_self_iff_true, if_true]
        ring
      · rw [if_neg (fun hh => h2 hh.1)]
        simp [h2]
    · rw [if_neg h3]
      have h0 : o.2 = 0 := by omega
      rw [if_neg (fun hh => hh.2 h0)]
      simp

lemma foldl_tradeStep_fst (price : ℕ → ℚ) (c i : ℚ) :
    ∀ (l : List (ℕ × ℤ)) (acc : (ℕ → ℚ) × (ℕ → ℚ)) (d : ℕ),
      (l.foldl (tradeStep price c i) acc).1 d =
        acc.1 d + ((l.filter (fun o => o.1 == d)).map (fun o => (o.2 : ℚ))).sum := by
  intro l
  induction l with
  | nil => intro acc d; simp
  | cons o l ih =>
    intro acc d
    rw [List.foldl_cons, ih, tradeStep_fst, List.filter_cons]
    by_cases h : o.1 = d
    · simp [h]
      ring
    · have h2 : ¬ d = o.1 := fun hh => h hh.symm
      simp [h, h2]

lemma foldl_tradeStep_snd (price : ℕ → ℚ) (c i : ℚ) :
    ∀ (l : List (ℕ × ℤ)) (acc : (ℕ → ℚ) × (ℕ → ℚ)) (d : ℕ),
      (l.foldl (tradeStep price c i) acc).2 d =
        acc.2 d + ((l.filter (fun o => o.1 == d && !(o.2 == 0))).map
          (fun o => -(price o.1 * (o.2 : ℚ) + (c + i * price o.1 * |(o.2 : ℚ)|)))).sum := by
  intro l
  induction l with
  | nil => intro acc d; simp
  | cons o l ih =>
    intro acc d
    rw [List.foldl_cons, ih, tradeStep_snd, List.filter_cons]
    by_cases h : o.1 = d
    · by_cases hz : o.2 = 0
      · have h2 : ¬ (d = o.1 ∧ o.2 ≠ 0) := fun hh => hh.2 hz
        simp [h, hz, h2]
      · have h2 : d = o.1 ∧ o.2 ≠ 0 := ⟨h.symm, hz⟩
        simp [h, hz, if_pos h2]
        ring
    · have h3 : ¬ d = o.1 := fun hh => h hh.symm
      have h2 : ¬ (d = o.1 ∧ o.2 ≠ 0) := fun hh => h3 hh.1
      simp [h, h2, h3]

lemma build_trades_fst (price : ℕ → ℚ) (c i : ℚ) (orders : List (ℕ × ℤ)) (d : ℕ) :
    (build_trades price c i orders).1 d =
      ((orders.filter (fun o => o.1 == d)).map (fun o => (o.2 : ℚ))).sum := by
  rw [build_trades, foldl_tradeStep_fst]
  simp

lemma build_trades_snd (price : ℕ → ℚ) (c i : ℚ) (orders : List (ℕ × ℤ)) (d : ℕ) :
    (build_trades price c i orders).2 d =
      ((orders.filter (fun o => o.1 == d && !(o.2 == 0))).map
        (fun o => -(price o.1 * (o.2 : ℚ) + (c + i * price o.1 * |(o.2 : ℚ)|)))).sum := by
  rw [build_trades, foldl_tradeStep_snd]
  simp

lemma perm_filter_map_sum (p : ℕ × ℤ → Bool) (f : ℕ × ℤ → ℚ)
    {l1 l2 : List (ℕ × ℤ)} (h : l1.Perm l2) :
    ((l1.filter p).map f).sum = ((l2.filter p).map f).sum :=
  ((h.filter p).map f).sum_eq

lemma portvals_df_orders (price : ℕ → ℚ) (sv c i : ℚ) (orders : List (ℕ × ℤ)) :
    (compute_portvals_single_symbol price sv c i orders).df_orders =
      List.insertionSort dateLe orders := rfl

lemma portvals_tradeShares (price : ℕ → ℚ) (sv c i : ℚ) (orders : List (ℕ × ℤ)) (d : ℕ) :
    (compute_portvals_single_symbol price sv c i orders).tradeShares d =
      ((orders.filter (fun o => o.1 == d)).map (fun o => (o.2 : ℚ))).sum := by
  show (build_trades price c i (List.insertionSort dateLe orders)).1 d = _
  rw [build_trades_fst]
  exact perm_filter_map_sum _ _ (List.perm_insertionSort dateLe orders)

lemma portvals_tradeCash (price : ℕ → ℚ) (sv c i : ℚ) (orders : List (ℕ × ℤ)) (d : ℕ) :
    (compute_portvals_single_symbol price sv c i orders).tradeCash d =
      ((orders.filter (fun o => o.1 == d && !(o.2 == 0))).map
        (fun o => -(price o.1 * (o.2 : ℚ) + (c + i * price o.1 * |(o.2 : ℚ)|)))).sum := by
  show (build_trades price c i (List.insertionSort dateLe orders)).2 d = _
  rw [build_trades_snd]
  exact perm_filter_map_sum _ _ (List.perm_insertionSort dateLe orders)

lemma portvals_holdShares (price : ℕ → ℚ) (sv c i : ℚ) (orders : List (ℕ × ℤ)) :
    (compute_portvals_single_symbol price sv c i orders).holdShares =
      holdingsShares (compute_portvals_single_symbol price sv c i orders).tradeShares := rfl

lemma portvals_holdCash (price : ℕ → ℚ) (sv c i : ℚ) (orders : List (ℕ × ℤ)) :
    (compute_portvals_single_symbol price sv c i orders).holdCash =
      holdingsCash sv (compute_portvals_single_symbol price sv c i orders).tradeCash := rfl

/-- C4: for a single buy of `n > 0` shares on date `d` at price `p = price d`
with commission `c` and impact `i`, the cash column of `df_trades` changes
on `d` by exactly `-(n*p + c + i*p*n)` and the share column by exactly `n`
(and so do the cumulative holdings across `d`); and for any order series,
the per-date share and cash deltas are the sums of the contributions of all
orders on that date — same-day orders accumulate rather than overwrite. -/
theorem C4_single_buy_and_same_day_accumulation (price : ℕ → ℚ) (sv c i : ℚ)
    (d : ℕ) (n : ℤ) (orders : List (ℕ × ℤ)) :
    (0 < n →
      (compute_portvals_single_symbol price sv c i [(d, n)]).tradeShares d = (n : ℚ) ∧
      (compute_portvals_single_symbol price sv c i [(d, n)]).tradeCash d =
        -((n : ℚ) * price d + c + i * price d * (n : ℚ)) ∧
      (0 < d →
        (compute_portvals_single_symbol price sv c i [(d, n)]).holdShares d -
          (compute_portvals_single_symbol price sv c i [(d, n)]).holdShares (d - 1) = (n : ℚ) ∧
        (compute_portvals_single_symbol price sv c i [(d, n)]).holdCash d -
          (compute_portvals_single_symbol price sv c i [(d, n)]).holdCash (d - 1) =
          -((n : ℚ) * price d + c + i * price d * (n : ℚ)))) ∧
    ((compute_portvals_single_symbol price sv c i orders).tradeShares d =
        ((orders.filter (fun o => o.1 == d)).map (fun o => (o.2 : ℚ))).sum ∧
      (compute_portvals_single_symbol price sv c i orders).tradeCash d =
        ((orders.filter (fun o => o.1 == d && !(o.2 == 0))).map
          (fun o => -(price o.1 * (o.2 : ℚ) + (c + i * price o.1 * |(o.2 : ℚ)|)))).sum) := by
  have hshare1 : (compute_portvals_single_symbol price sv c i [(d, n)]).tradeShares d = (n : ℚ) := by
    rw [portvals_tradeShares]
    simp
  constructor
  · intro hn
    have habs : |(n : ℚ)| = (n : ℚ) := abs_of_pos (by exact_mod_cast hn)
    have hcash1 : (compute_portvals_single_symbol price sv c i [(d, n)]).tradeCash d =
        -((n : ℚ) * price d + c + i * price d * (n : ℚ)) := by
      rw [portvals_tradeCash]
      simp only [List.filter_cons, List.filter_nil, beq_self_eq_true, Bool.true_and,
        hn.ne', ne_eq, not_false_eq_true]
      rw [if_pos (by simp [hn.ne'])]
      simp [habs]
      ring
    refine ⟨hshare1, hcash1, ?_⟩
    intro hd
    obtain ⟨e, rfl⟩ : ∃ e, d = e + 1 := ⟨d - 1, by omega⟩
    rw [portvals_holdShares, portvals_holdCash]
    constructor
    · simp only [Nat.add_sub_cancel, holdingsShares]
      rw [hshare1]
      ring
    · simp only [Nat.add_sub_cancel, holdingsCash]
      rw [hcash1]
      ring
  · exact ⟨portvals_tradeShares price sv c i orders d, portvals_tradeCash price sv c i orders d⟩

/-- C4 (witness): the theorem applied at price `5`, commission `2`, impact
`2`: a single buy of `3` shares on date `1` moves cash by `-(15+2+30) =
-47` and shares by `3`; and with orders `[(1,2), (1,-1), (0,4)]` the two
date-`1` orders accumulate to a share delta of `1` and a cash delta of
`-32 + -7 = -39`. -/
theorem C4_witness :
    (compute_portvals_single_symbol (fun _ => 5) 0 2 2 [(1, 3)]).tradeShares 1 = 3 ∧
    (compute_portvals_single_symbol (fun _ => 5) 0 2 2 [(1, 3)]).tradeCash 1 = -47 ∧
    (compute_portvals_single_symbol (fun _ => 5) 0 2 2 [(1, 2), (1, -1), (0, 4)]).tradeShares 1 = 1 ∧
    (compute_portvals_single_symbol (fun _ => 5) 0 2 2 [(1, 2), (1, -1), (0, 4)]).tradeCash 1 = -39 := by
  obtain ⟨h1, -⟩ := C4_single_buy_and_same_day_accumulation (fun _ => 5) 0 2 2 1 3 [(1, 3)]
  obtain ⟨hs1, hc1, -⟩ := h1 (by norm_num)
  obtain ⟨-, hs2, hc2⟩ := C4_single_buy_and_same_day_accumulation (fun _ => 5) 0 2 2 1 (3 : ℤ)
    [(1, 2), (1, -1), (0, 4)]
  refine ⟨hs1, by rw [hc1]; norm_num, ?_, ?_⟩
  · rw [hs2]; norm_num [List.filter_cons, List.filter_nil]
  · rw [hc2]; norm_num [List.filter_cons, List.filter_nil]

/-- C10: `compute_portvals_single_symbol` sorts the caller's order frame in
place (the frame coming back is date-sorted and a permutation of the input;
an input whose dates were unsorted is left permanently reordered), and the
returned portfolio values depend only on the orders' contents, not on their
original ordering. -/
theorem C10_inplace_sort_and_order_independence (price : ℕ → ℚ) (sv c i : ℚ)
    (orders orders2 : List (ℕ × ℤ)) :
    (compute_portvals_single_symbol price sv c i orders).df_orders.Perm orders ∧
    List.Sorted dateLe (compute_portvals_single_symbol price sv c i orders).df_orders ∧
    (¬ List.Sorted dateLe orders →
      (compute_portvals_single_symbol price sv c i orders).df_orders ≠ orders) ∧
    (orders.Perm orders2 → ∀ t,
      (compute_portvals_single_symbol price sv c i orders).portvals t =
        (compute_portvals_single_symbol price sv c i orders2).portvals t) := by
  refine ⟨?_, ?_, ?_, ?_⟩
  · rw [portvals_df_orders]
    exact List.perm_insertionSort dateLe orders
  · rw [portvals_df_orders]
    exact List.sorted_insertionSort dateLe orders
  · intro hns heq
    apply hns
    rw [← heq, portvals_df_orders]
    exact List.sorted_insertionSort dateLe orders
  · intro hperm t
    have hchain : (List.insertionSort dateLe orders).Perm (List.insertionSort dateLe orders2) :=
      ((List.perm_insertionSort dateLe orders).trans hperm).trans
        (List.perm_insertionSort dateLe orders2).symm
    have h1 : (build_trades price c i (List.insertionSort dateLe orders)).1 =
        (build_trades price c i (List.insertionSort dateLe orders2)).1 := by
      funext x
      rw [build_trades_fst, build_trades_fst]
      exact perm_filter_map_sum _ _ hchain
    have h2 : (build_trades price c i (List.insertionSort dateLe orders)).2 =
        (build_trades price c i (List.insertionSort dateLe orders2)).2 := by
      funext x
      rw [build_trades_snd, build_trades_snd]
      exact perm_filter_map_sum _ _ hchain
    show price t * holdingsShares (build_trades price c i (List.insertionSort dateLe orders)).1 t +
        holdingsCash sv (build_trades price c i (List.insertionSort dateLe orders)).2 t = _
    rw [h1, h2]
    rfl

/-- C10 (witness): the theorem applied to the unsorted order list
`[(1, 5), (0, 3)]`: the caller's frame comes back reordered, and the
portfolio value on day 1 agrees with the one computed from the date-sorted
permutation `[(0, 3), (1, 5)]`. -/
theorem C10_witness :
    (compute_portvals_single_symbol (fun _ => 2) 100 0 0 [(1, 5), (0, 3)]).df_orders ≠
      [(1, 5), (0, 3)] ∧
    (compute_portvals_single_symbol (fun _ => 2) 100 0 0 [(1, 5), (0, 3)]).portvals 1 =
      (compute_portvals_single_symbol (fun _ => 2) 100 0 0 [(0, 3), (1, 5)]).portvals 1 := by
  have h := C10_inplace_sort_and_order_independence (fun _ => 2) 100 0 0
    [(1, 5), (0, 3)] [(0, 3), (1, 5)]
  exact ⟨h.2.2.1 (by decide), h.2.2.2 (by decide) 1⟩

/-! ## Walk lemmas for C3, C6 and C8 -/

lemma get_position_step (p sg : ℤ) (hp : p = SHORT ∨ p = CASH ∨ p = LONG) :
    (p + get_position p sg = SHORT ∨ p + get_position p sg = CASH ∨
      p + get_position p sg = LONG) ∧
    -1 ≤ get_position p sg ∧ get_position p sg ≤ 1 := by
  rcases hp with rfl | rfl | rfl <;>
    (simp only [get_position, LONG, CASH, SHORT]; split_ifs <;> omega)

lemma trainStep_posBefore {σ : Type} (act : σ → ℤ → ℚ → Bool → Bool → ℤ × σ)
    (prices : ℕ → ℚ) (offset T day : ℕ) (p : ℤ) (s : σ) (state : ℤ) :
    (trainStep act prices offset T day p s state).1.posBefore = p := rfl

lemma trainStep_state {σ : Type} (act : σ → ℤ → ℚ → Bool → Bool → ℤ × σ)
    (prices : ℕ → ℚ) (offset T day : ℕ) (p : ℤ) (s : σ) (state : ℤ) :
    (trainStep act prices offset T day p s state).1.state = state := rfl

lemma trainStep_posAfter {σ : Type} (act : σ → ℤ → ℚ → Bool → Bool → ℤ × σ)
    (prices : ℕ → ℚ) (offset T day : ℕ) (p : ℤ) (s : σ) (state : ℤ) :
    (trainStep act prices offset T day p s state).1.posAfter =
      p + (trainStep act prices offset T day p s state).1.order := rfl

lemma trainStep_order_last {σ : Type} (act : σ → ℤ → ℚ → Bool → Bool → ℤ × σ)
    (prices : ℕ → ℚ) (offset T day : ℕ) (p : ℤ) (s : σ) (state : ℤ)
    (h : day = T - 1) :
    (trainStep act prices offset T day p s state).1.order = -p := by
  simp [trainStep, h]

lemma trainStep_order_notlast {σ : Type} (act : σ → ℤ → ℚ → Bool → Bool → ℤ × σ)
    (prices : ℕ → ℚ) (offset T day : ℕ) (p : ℤ) (s : σ) (state : ℤ)
    (h : ¬ day = T - 1) :
    (trainStep act prices offset T day p s state).1.order =
      get_position p (trainStep act prices offset T day p s state).1.signal := by
  simp [trainStep, h]

lemma testStep_posBefore {σ : Type} (act : σ → ℤ → ℚ → Bool → Bool → ℤ × σ)
    (T day : ℕ) (p : ℤ) (s : σ) (state : ℤ) :
    (testStep act T day p s state).1.posBefore = p := rfl

lemma testStep_state {σ : Type} (act : σ → ℤ → ℚ → Bool → Bool → ℤ × σ)
    (T day : ℕ) (p : ℤ) (s : σ) (state : ℤ) :
    (testStep act T day p s state).1.state = state := rfl

lemma testStep_posAfter {σ : Type} (act : σ → ℤ → ℚ → Bool → Bool → ℤ × σ)
    (T day : ℕ) (p : ℤ) (s : σ) (state : ℤ) :
    (testStep act T day p s state).1.posAfter =
      p + (testStep act T day p s state).1.order := rfl

lemma testStep_order_last {σ : Type} (act : σ → ℤ → ℚ → Bool → Bool → ℤ × σ)
    (T day : ℕ) (p : ℤ) (s : σ) (state : ℤ) (h : day = T - 1) :
    (testStep act T day p s state).1.order = -p := by
  simp [testStep, h]

lemma testStep_order_notlast {σ : Type} (act : σ → ℤ → ℚ → Bool → Bool → ℤ × σ)
    (T day : ℕ) (p : ℤ) (s : σ) (state : ℤ) (h : ¬ day = T - 1) :
    (testStep act T day p s state).1.order =
      get_position p (testStep act T day p s state).1.signal := by
  simp [testStep, h]

lemma trainWalkGo_spec {σ : Type} (ns : ℕ) (act : σ → ℤ → ℚ → Bool → Bool → ℤ × σ)
    (thr : List (List ℚ)) (prices : ℕ → ℚ) (offset T : ℕ) :
    ∀ (feats : List (List ℚ)) (day : ℕ) (p : ℤ) (s : σ) (recs : List DayRec),
      trainWalkGo ns act thr prices offset T feats day p s = some recs →
      day + feats.length = T →
      (p = SHORT ∨ p = CASH ∨ p = LONG) →
      recs.length = feats.length ∧
      (∀ r ∈ recs,
        (r.posBefore = SHORT ∨ r.posBefore = CASH ∨ r.posBefore = LONG) ∧
        (r.posAfter = SHORT ∨ r.posAfter = CASH ∨ r.posAfter = LONG) ∧
        r.posAfter = r.posBefore + r.order ∧ -1 ≤ r.order ∧ r.order ≤ 1) ∧
      (∀ r ∈ recs.dropLast, r.order = get_position r.posBefore r.signal) ∧
      (feats ≠ [] → ∃ rl, recs.getLast? = some rl ∧ rl.posAfter = 0) := by
  intro feats
  induction feats with
  | nil =>
    intro day p s recs h _ _
    simp only [trainWalkGo, Option.some.injEq] at h
    subst h
    exact ⟨rfl, by simp, by simp, fun hc => absurd rfl hc⟩
  | cons fv rest ih =>
    intro day p s recs h hT hp
    simp only [trainWalkGo] at h
    rcases hdisc : discretize ns fv (p + 1) thr with _ | state
    · simp only [hdisc] at h
      exact Option.noConfusion h
    · simp only [hdisc] at h
      set st := trainStep act prices offset T day p s state with hst
      rcases hrec : trainWalkGo ns act thr prices offset T rest (day + 1)
          st.1.posAfter st.2 with _ | recs2
      · simp only [hrec] at h
        exact Option.noConfusion h
      · simp only [hrec, Option.some.injEq] at h
        subst h
        have hpb : st.1.posBefore = p := trainStep_posBefore act prices offset T day p s state
        have hpa : st.1.posAfter = p + st.1.order :=
          trainStep_posAfter act prices offset T day p s state
        have hordS : (st.1.posAfter = SHORT ∨ st.1.posAfter = CASH ∨ st.1.posAfter = LONG) ∧
            -1 ≤ st.1.order ∧ st.1.order ≤ 1 := by
          by_cases hl : day = T - 1
          · have ho := trainStep_order_last act prices offset T day p s state hl
            rw [hpa, ho]
            simp only [SHORT, CASH, LONG] at hp ⊢
            omega
          · have ho := trainStep_order_notlast act prices offset T day p s state hl
            rw [hpa, ho]
            exact get_position_step p st.1.signal hp
        have ihh := ih (day + 1) st.1.posAfter st.2 recs2 hrec
          (by simp only [List.length_cons] at hT; omega) hordS.1
        refine ⟨by simp [ihh.1], ?_, ?_, ?_⟩
        · intro r hr
          rcases List.mem_cons.mp hr with rfl | hr2
          · exact ⟨hpb ▸ hp, hordS.1, by rw [hpa, hpb], hordS.2⟩
          · exact ihh.2.1 r hr2
        · intro r hr
          cases recs2 with
          | nil => simp at hr
          | cons x xs =>
            rw [List.dropLast_cons_of_ne_nil (List.cons_ne_nil x xs)] at hr
            rcases List.mem_cons.mp hr with rfl | hr2
            · have hnl : ¬ day = T - 1 := by
                have hlen := ihh.1
                simp only [List.length_cons] at hlen hT
                omega
              rw [hpb]
              exact trainStep_order_notlast act prices offset T day p s state hnl
            · exact ihh.2.2.1 r hr2
        · intro _
          cases recs2 with
          | nil =>
            refine ⟨st.1, rfl, ?_⟩
            have hl : day = T - 1 := by
              have hlen := ihh.1
              simp only [List.length_nil, List.length_cons] at hlen hT
              omega
            rw [hpa, trainStep_order_last act prices offset T day p s state hl]
            ring
          | cons x xs =>
            have hrestne : rest ≠ [] := by
              intro hc
              have hlen := ihh.1
              rw [hc] at hlen
              simp at hlen
            obtain ⟨rl, hrl, hrl0⟩ := ihh.2.2.2 hrestne
            refine ⟨rl, ?_, hrl0⟩
            rw [List.getLast?_cons_cons]
            exact hrl

lemma testWalkGo_spec {σ : Type} (ns : ℕ) (act : σ → ℤ → ℚ → Bool → Bool → ℤ × σ)
    (thr : List (List ℚ)) (T : ℕ) :
    ∀ (feats : List (List ℚ)) (day : ℕ) (p : ℤ) (s : σ) (recs : List DayRec),
      testWalkGo ns act thr T feats day p s = some recs →
      day + feats.length = T →
      (p = SHORT ∨ p = CASH ∨ p = LONG) →
      recs.length = feats.length ∧
      (∀ r ∈ recs,
        (r.posBefore = SHORT ∨ r.posBefore = CASH ∨ r.posBefore = LONG) ∧
        (r.posAfter = SHORT ∨ r.posAfter = CASH ∨ r.posAfter = LONG) ∧
        r.posAfter = r.posBefore + r.order ∧ -1 ≤ r.order ∧ r.order ≤ 1) ∧
      (∀ r ∈ recs.dropLast, r.order = get_position r.posBefore r.signal) ∧
      (feats ≠ [] → ∃ rl, recs.getLast? = some rl ∧ rl.posAfter = 0) ∧
      (∀ (j : ℕ) (r : DayRec) (fv2 : List ℚ), recs[j]? = some r →
        feats[j]? = some fv2 →
        discretize ns fv2 (r.posBefore + 1) thr = some r.state) := by
  intro feats
  induction feats with
  | nil =>
    intro day p s recs h _ _
    simp only [testWalkGo, Option.some.injEq] at h
    subst h
    refine ⟨rfl, by simp, by simp, fun hc => absurd rfl hc, ?_⟩
    intro j r fv2 hj
    simp at hj
  | cons fv rest ih =>
    intro day p s recs h hT hp
    simp only [testWalkGo] at h
    rcases hdisc : discretize ns fv (p + 1) thr with _ | state
    · simp only [hdisc] at h
      exact Option.noConfusion h
    · simp only [hdisc] at h
      set st := testStep act T day p s state with hst
      rcases hrec : testWalkGo ns act thr T rest (day + 1)
          st.1.posAfter st.2 with _ | recs2
      · simp only [hrec] at h
        exact Option.noConfusion h
      · simp only [hrec, Option.some.injEq] at h
        subst h
        have hpb : st.1.posBefore = p := testStep_posBefore act T day p s state
        have hpa : st.1.posAfter = p + st.1.order := testStep_posAfter act T day p s state
        have hordS : (st.1.posAfter = SHORT ∨ st.1.posAfter = CASH ∨ st.1.posAfter = LONG) ∧
            -1 ≤ st.1.order ∧ st.1.order ≤ 1 := by
          by_cases hl : day = T - 1
          · have ho := testStep_order_last act T day p s state hl
            rw [hpa, ho]
            simp only [SHORT, CASH, LONG] at hp ⊢
            omega
          · have ho := testStep_order_notlast act T day p s state hl
            rw [hpa, ho]
            exact get_position_step p st.1.signal hp
        have ihh := ih (day + 1) st.1.posAfter st.2 recs2 hrec
          (by simp only [List.length_cons] at hT; omega) hordS.1
        refine ⟨by simp [ihh.1], ?_, ?_, ?_, ?_⟩
        · intro r hr
          rcases List.mem_cons.mp hr with rfl | hr2
          · exact ⟨hpb ▸ hp, hordS.1, by rw [hpa, hpb], hordS.2⟩
          · exact ihh.2.1 r hr2
        · intro r hr
          cases recs2 with
          | nil => simp at hr
          | cons x xs =>
            rw [List.dropLast_cons_of_ne_nil (List.cons_ne_nil x xs)] at hr
            rcases List.mem_cons.mp hr with rfl | hr2
            · have hnl : ¬ day = T - 1 := by
                have hlen := ihh.1
                simp only [List.length_cons] at hlen hT
                omega
              rw [hpb]
              exact testStep_order_notlast act T day p s state hnl
            · exact ihh.2.2.1 r hr2
        · intro _
          cases recs2 with
          | nil =>
            refine ⟨st.1, rfl, ?_⟩
            have hl : day = T - 1 := by
              have hlen := ihh.1
              simp only [List.length_nil, List.length_cons] at hlen hT
              omega
            rw [hpa, testStep_order_last act T day p s state hl]
            ring
          | cons x xs =>
            have hrestne : rest ≠ [] := by
              intro hc
              have hlen := ihh.1
              rw [hc] at hlen
              simp at hlen
            obtain ⟨rl, hrl, hrl0⟩ := ihh.2.2.2.1 hrestne
            refine ⟨rl, ?_, hrl0⟩
            rw [List.getLast?_cons_cons]
            exact hrl
        · intro j r fv2 hjr hjf
          cases j with
          | zero =>
            simp only [List.getElem?_cons_zero, Option.some.injEq] at hjr hjf
            rw [← hjr, ← hjf, hpb, testStep_state act T day p s state]
            exact hdisc
          | succ j2 =>
            simp only [List.getElem?_cons_succ] at hjr hjf
            exact ihh.2.2.2.2 j2 r fv2 hjr hjf

/-- Success of `add_evidence_walk` splits into success of `get_thresholds`
on the walk's own features and of the inner day loop. -/
lemma add_evidence_walk_eq {σ : Type} (ns : ℕ) (act : σ → ℤ → ℚ → Bool → Bool → ℤ × σ)
    (feats : List (List ℚ)) (prices : ℕ → ℚ) (offset : ℕ) (s0 : σ)
    (thr : List (List ℚ)) (recs : List DayRec)
    (h : add_evidence_walk ns act feats prices offset s0 = some (thr, recs)) :
    get_thresholds feats.transpose ns feats.length = some thr ∧
    trainWalkGo ns act thr prices offset feats.length feats 0 CASH s0 = some recs := by
  rw [add_evidence_walk] at h
  rcases hg : get_thresholds feats.transpose ns feats.length with _ | thr2
  · rw [hg] at h; cases h
  · rw [hg] at h
    simp only [Option.map_eq_some'] at h
    obtain ⟨recs2, hw, heq⟩ := h
    cases heq
    exact ⟨rfl, hw⟩

/-- Success of `test_policy_walk` splits likewise. -/
lemma test_policy_walk_eq {σ : Type} (ns : ℕ) (act : σ → ℤ → ℚ → Bool → Bool → ℤ × σ)
    (feats : List (List ℚ)) (s0 : σ) (thr : List (List ℚ)) (recs : List DayRec)
    (h : test_policy_walk ns act feats s0 = some (thr, recs)) :
    get_thresholds feats.transpose ns feats.length = some thr ∧
    testWalkGo ns act thr feats.length feats 0 CASH s0 = some recs := by
  rw [test_policy_walk] at h
  rcases hg : get_thresholds feats.transpose ns feats.length with _ | thr2
  · rw [hg] at h; cases h
  · rw [hg] at h
    simp only [Option.map_eq_some'] at h
    obtain ⟨recs2, hw, heq⟩ := h
    cases heq
    exact ⟨rfl, hw⟩

/-- C3 (amended): for every day of a training or testing walk except the
last, the recorded order follows the state-machine table — it equals
`get_position(old_position, signal)` — and the resulting position is the
old position plus that order (the `position += new_pos` line), not the
table value itself; e.g. from `LONG` a `SHORT` signal leaves the position
`CASH`. -/
theorem C3_order_follows_table {σ : Type} (ns : ℕ)
    (act : σ → ℤ → ℚ → Bool → Bool → ℤ × σ) (feats : List (List ℚ))
    (prices : ℕ → ℚ) (offset : ℕ) (s0 : σ) (thr : List (List ℚ))
    (recs : List DayRec) :
    (add_evidence_walk ns act feats prices offset s0 = some (thr, recs) →
      ∀ r ∈ recs.dropLast,
        r.order = get_position r.posBefore r.signal ∧
        r.posAfter = r.posBefore + r.order) ∧
    (test_policy_walk ns act feats s0 = some (thr, recs) →
      ∀ r ∈ recs.dropLast,
        r.order = get_position r.posBefore r.signal ∧
        r.posAfter = r.posBefore + r.order) := by
  constructor
  · intro h r hr
    obtain ⟨-, hw⟩ := add_evidence_walk_eq ns act feats prices offset s0 thr recs h
    have hs := trainWalkGo_spec ns act thr prices offset feats.length feats 0 CASH
      s0 recs hw (by simp) (Or.inr (Or.inl rfl))
    exact ⟨hs.2.2.1 r hr, (hs.2.1 r (List.dropLast_subset recs hr)).2.2.1⟩
  · intro h r hr
    obtain ⟨-, hw⟩ := test_policy_walk_eq ns act feats s0 thr recs h
    have hs := testWalkGo_spec ns act thr feats.length feats 0 CASH s0 recs hw
      (by simp) (Or.inr (Or.inl rfl))
    exact ⟨hs.2.2.1 r hr, (hs.2.1 r (List.dropLast_subset recs hr)).2.2.1⟩

/-- C3 (witness): the amended theorem applied to the concrete three-day
training walk of the counterexample. -/
theorem C3_witness :
    ∀ r ∈ ([⟨1, 0, 1, 1, 0, 1⟩, ⟨2, 0, -1, -1, 1, 0⟩,
        ⟨1, 0, 1, 0, 0, 0⟩] : List DayRec).dropLast,
      r.order = get_position r.posBefore r.signal ∧
      r.posAfter = r.posBefore + r.order := by
  apply (C3_order_follows_table 1 actC3 [[0], [0], [0]] (fun _ => (1 : ℚ)) 9 ()
      [[0]] [⟨1, 0, 1, 1, 0, 1⟩, ⟨2, 0, -1, -1, 1, 0⟩, ⟨1, 0, 1, 0, 0, 0⟩]).1
  norm_num [add_evidence_walk, trainWalkGo, trainStep, get_thresholds, colThresholds,
    allSome, pyRound, discretize, binCols, firstGEVal, whereCol, findFirst, radixSum,
    get_daily_reward, get_position, actC3, LONG, CASH, SHORT, List.transpose,
    List.insertionSort, List.orderedInsert]

/-- C8: throughout every training epoch and every testing walk the running
position before and after each day is one of `SHORT`, `CASH`, `LONG`; it
changes by at most one unit from one day to the next (including the forced
flattening of the final day); and after applying the final day's order the
position is `CASH = 0`. -/
theorem C8_position_invariants {σ : Type} (ns : ℕ)
    (act : σ → ℤ → ℚ → Bool → Bool → ℤ × σ) (feats : List (List ℚ))
    (prices : ℕ → ℚ) (offset : ℕ) (s0 : σ) (thr : List (List ℚ))
    (recs : List DayRec) :
    (add_evidence_walk ns act feats prices offset s0 = some (thr, recs) →
      (∀ r ∈ recs,
        (r.posBefore = SHORT ∨ r.posBefore = CASH ∨ r.posBefore = LONG) ∧
        (r.posAfter = SHORT ∨ r.posAfter = CASH ∨ r.posAfter = LONG) ∧
        -1 ≤ r.posAfter - r.posBefore ∧ r.posAfter - r.posBefore ≤ 1) ∧
      (feats ≠ [] → ∃ rl, recs.getLast? = some rl ∧ rl.posAfter = CASH)) ∧
    (test_policy_walk ns act feats s0 = some (thr, recs) →
      (∀ r ∈ recs,
        (r.posBefore = SHORT ∨ r.posBefore = CASH ∨ r.posBefore = LONG) ∧
        (r.posAfter = SHORT ∨ r.posAfter = CASH ∨ r.posAfter = LONG) ∧
        -1 ≤ r.posAfter - r.posBefore ∧ r.posAfter - r.posBefore ≤ 1) ∧
      (feats ≠ [] → ∃ rl, recs.getLast? = some rl ∧ rl.posAfter = CASH)) := by
  constructor
  · intro h
    obtain ⟨-, hw⟩ := add_evidence_walk_eq ns act feats prices offset s0 thr recs h
    have hs := trainWalkGo_spec ns act thr prices offset feats.length feats 0 CASH
      s0 recs hw (by simp) (Or.inr (Or.inl rfl))
    constructor
    · intro r hr
      obtain ⟨h1, h2, h3, h4, h5⟩ := hs.2.1 r hr
      exact ⟨h1, h2, by omega, by omega⟩
    · intro hne
      obtain ⟨rl, hrl, h0⟩ := hs.2.2.2 hne
      exact ⟨rl, hrl, by rw [h0]; rfl⟩
  · intro h
    obtain ⟨-, hw⟩ := test_policy_walk_eq ns act feats s0 thr recs h
    have hs := testWalkGo_spec ns act thr feats.length feats 0 CASH s0 recs hw
      (by simp) (Or.inr (Or.inl rfl))
    constructor
    · intro r hr
      obtain ⟨h1, h2, h3, h4, h5⟩ := hs.2.1 r hr
      exact ⟨h1, h2, by omega, by omega⟩
    · intro hne
      obtain ⟨rl, hrl, h0⟩ := hs.2.2.2.1 hne
      exact ⟨rl, hrl, by rw [h0]; rfl⟩

/-- C8 (witness): the theorem applied to a concrete two-day training walk
and a concrete two-day testing walk of the always-buy agent: all positions
lie in the three-state range and the final position is flat. -/
theorem C8_witness :
    (∀ r ∈ ([⟨1, 0, 1, 1, 0, 1⟩, ⟨2, 0, 1, -1, 1, 0⟩] : List DayRec),
      (r.posBefore = SHORT ∨ r.posBefore = CASH ∨ r.posBefore = LONG) ∧
      (r.posAfter = SHORT ∨ r.posAfter = CASH ∨ r.posAfter = LONG) ∧
      -1 ≤ r.posAfter - r.posBefore ∧ r.posAfter - r.posBefore ≤ 1) ∧
    (∃ rl, ([⟨1, 0, 1, 1, 0, 1⟩, ⟨2, 0, 1, -1, 1, 0⟩] : List DayRec).getLast? =
      some rl ∧ rl.posAfter = CASH) ∧
    (∃ rl, ([⟨1, 0, 1, 1, 0, 1⟩, ⟨2, 0, 1, -1, 1, 0⟩] : List DayRec).getLast? =
      some rl ∧ rl.posAfter = CASH) := by
  have htr := (C8_position_invariants 1 actC8 [[0], [0]] (fun _ => (1 : ℚ)) 9 ()
      [[0]] [⟨1, 0, 1, 1, 0, 1⟩, ⟨2, 0, 1, -1, 1, 0⟩]).1 (by
    norm_num [add_evidence_walk, trainWalkGo, trainStep, get_thresholds, colThresholds,
      allSome, pyRound, discretize, binCols, firstGEVal, whereCol, findFirst, radixSum,
      get_daily_reward, get_position, actC8, LONG, CASH, SHORT, List.transpose,
      List.insertionSort, List.orderedInsert])
  have hte := (C8_position_invariants 1 actC8 [[0], [0]] (fun _ => (1 : ℚ)) 9 ()
      [[0]] [⟨1, 0, 1, 1, 0, 1⟩, ⟨2, 0, 1, -1, 1, 0⟩]).2 (by decide)
  exact ⟨htr.1, htr.2 (by simp), hte.2 (by simp)⟩

/-- C6 (amended): the threshold table `test_policy` discretizes against is
the one `get_thresholds` computes from the testing walk's own (test-period)
features — not the training-period table — and every recorded state is the
discretization of that day's test features against this test-derived
table. -/
theorem C6_thresholds_from_test_period {σ : Type} (ns : ℕ)
    (act : σ → ℤ → ℚ → Bool → Bool → ℤ × σ) (feats : List (List ℚ)) (s0 : σ)
    (thr : List (List ℚ)) (recs : List DayRec)
    (h : test_policy_walk ns act feats s0 = some (thr, recs)) :
    get_thresholds feats.transpose ns feats.length = some thr ∧
    ∀ (j : ℕ) (r : DayRec) (fv : List ℚ), recs[j]? = some r →
      feats[j]? = some fv →
      discretize ns fv (r.posBefore + 1) thr = some r.state := by
  obtain ⟨hg, hw⟩ := test_policy_walk_eq ns act feats s0 thr recs h
  have hs := testWalkGo_spec ns act thr feats.length feats 0 CASH s0 recs hw
    (by simp) (Or.inr (Or.inl rfl))
  exact ⟨hg, hs.2.2.2.2⟩

/-- C6 (witness): the amended theorem applied to the one-day testing walk
of the counterexample: the table used is the one computed from the test
features `[[1]]`, and day 0's state `1` is the discretization against it. -/
theorem C6_witness :
    get_thresholds (List.transpose [[(1 : ℚ)]]) 1 1 = some [[1]] ∧
    discretize 1 [1] ((0 : ℤ) + 1) [[1]] = some 1 := by
  have h := C6_thresholds_from_test_period 1 actC6 [[1]] () [[1]]
    [⟨1, 0, 0, 0, 0, 0⟩] (by decide)
  exact ⟨h.1, h.2 0 ⟨1, 0, 0, 0, 0, 0⟩ [1] rfl rfl⟩

/-! ## C2: the `discretize` encoding -/

lemma binCols_spec (thr : List (List ℚ)) :
    ∀ (vs : List ℚ) (i : ℕ),
      i + vs.length ≤ thr.length →
      (∀ (j : ℕ) (v : ℚ) (row : List ℚ), vs[j]? = some v →
        thr[i + j]? = some row → ∃ t ∈ row, v ≤ t) →
      ∃ cols, binCols thr vs i = some cols ∧ cols.length = vs.length ∧
        ∀ cl ∈ cols, ∃ row2 ∈ thr, cl < row2.length := by
  intro vs
  induction vs with
  | nil =>
    intro i _ _
    exact ⟨[], rfl, rfl, by simp⟩
  | cons v vs2 ih =>
    intro i hlen hcov
    have hi : i < thr.length := by simp only [List.length_cons] at hlen; omega
    have hrow : thr[i]? = some thr[i] := List.getElem?_eq_getElem hi
    have hcov0 := hcov 0 v thr[i] (by simp) (by simp [hrow])
    obtain ⟨u, hu, humem, huv⟩ := firstGEVal_spec v thr[i] hcov0
    have hrmem : thr[i] ∈ thr := List.getElem_mem hi
    obtain ⟨c, hc, row2, hrow2, hlen2⟩ := whereCol_spec thr thr[i] u hrmem humem
    obtain ⟨cols2, hcols2, hlen3, hbound⟩ := ih (i + 1)
      (by simp only [List.length_cons] at hlen; omega)
      (by
        intro j v2 row3 hj hr
        refine hcov (j + 1) v2 row3 (by simpa using hj) ?_
        rw [show i + (j + 1) = i + 1 + j by omega]
        exact hr)
    refine ⟨c :: cols2, ?_, by simp [hlen3], ?_⟩
    · simp only [binCols, hrow, hu, hc, hcols2]
    · intro cl hcl
      rcases List.mem_cons.mp hcl with rfl | h2
      · exact ⟨row2, hrow2, hlen2⟩
      · exact hbound cl h2

lemma radixSum_lt (ns : ℕ) :
    ∀ cols : List ℕ, (∀ c ∈ cols, c < ns) → radixSum ns cols < ns ^ cols.length := by
  intro cols
  induction cols with
  | nil => intro _; simp [radixSum]
  | cons c cs ih =>
    intro h
    have hc := h c (List.mem_cons_self c cs)
    have hcs := ih (fun x hx => h x (List.mem_cons_of_mem c hx))
    simp only [radixSum, List.length_cons, pow_succ]
    calc c + ns * radixSum ns cs < ns + ns * radixSum ns cs := by omega
      _ = ns * (radixSum ns cs + 1) := by ring
      _ ≤ ns * ns ^ cs.length := Nat.mul_le_mul_left ns (Nat.succ_le_of_lt hcs)
      _ = ns ^ cs.length * ns := Nat.mul_comm ns (ns ^ cs.length)

lemma decode_encode (ns : ℕ) (h0 : 0 < ns) :
    ∀ (cols : List ℕ) (p : ℤ), 0 ≤ p → (∀ c ∈ cols, c < ns) →
      decodeBins ns cols.length
        (p * (ns : ℤ) ^ cols.length + (radixSum ns cols : ℤ)) = cols := by
  intro cols
  induction cols with
  | nil => intro p _ _; simp [decodeBins]
  | cons c cs ih =>
    intro p hp h
    have hc := h c (List.mem_cons_self c cs)
    have hcs : ∀ x ∈ cs, x < ns := fun x hx => h x (List.mem_cons_of_mem c hx)
    have hns : ((ns : ℤ)) ≠ 0 := by exact_mod_cast h0.ne'
    have hseq : p * (ns : ℤ) ^ (cs.length + 1) + (radixSum ns (c :: cs) : ℤ) =
        (c : ℤ) + (ns : ℤ) * (p * (ns : ℤ) ^ cs.length + (radixSum ns cs : ℤ)) := by
      simp only [radixSum]
      push_cast
      ring
    have hmod : ((c : ℤ) + (ns : ℤ) * (p * (ns : ℤ) ^ cs.length +
        (radixSum ns cs : ℤ))) % (ns : ℤ) = (c : ℤ) := by
      rw [Int.add_mul_emod_self_left]
      exact Int.emod_eq_of_lt (by positivity) (by exact_mod_cast hc)
    have hdiv : ((c : ℤ) + (ns : ℤ) * (p * (ns : ℤ) ^ cs.length +
        (radixSum ns cs : ℤ))) / (ns : ℤ) =
        p * (ns : ℤ) ^ cs.length + (radixSum ns cs : ℤ) := by
      rw [Int.add_mul_ediv_left _ _ hns,
        Int.ediv_eq_zero_of_lt (by positivity) (by exact_mod_cast hc)]
      ring
    simp only [List.length_cons, decodeBins]
    rw [hseq, hmod, hdiv, ih p hp hcs]
    simp

lemma encode_ediv_pow (ns : ℕ) (h0 : 0 < ns) (cols : List ℕ) (p : ℤ)
    (_hp : 0 ≤ p) (h : ∀ c ∈ cols, c < ns) :
    (p * (ns : ℤ) ^ cols.length + (radixSum ns cols : ℤ)) /
      (ns : ℤ) ^ cols.length = p := by
  have hlt : (radixSum ns cols : ℤ) < (ns : ℤ) ^ cols.length := by
    exact_mod_cast radixSum_lt ns cols h
  have hpow : ((ns : ℤ) ^ cols.length) ≠ 0 := by positivity
  have harr : p * (ns : ℤ) ^ cols.length + (radixSum ns cols : ℤ) =
      (radixSum ns cols : ℤ) + (ns : ℤ) ^ cols.length * p := by ring
  rw [harr, Int.add_mul_ediv_left _ _ hpow,
    Int.ediv_eq_zero_of_lt (by positivity) hlt]
  ring

/-- C2 (counterexample): with the per-feature-sorted, covering threshold
table `[[2, 4], [4, 6]]` and features `[2, 3]`, the threshold selected for
feature 1 is `4`, but `np.where(thresholds == 4)[1][0]` finds its first
occurrence in row-major order over the whole array — row 0, column 1 — so
`discretize` returns `0*2^2 + (0*2^0 + 1*2^1) = 2`, while the claim's
within-row bin (`4` sits at column 0 of row 1) predicts state `0`. -/
theorem C2_counterexample :
    List.Sorted (· ≤ ·) [(2 : ℚ), 4] ∧ List.Sorted (· ≤ ·) [(4 : ℚ), 6] ∧
    ((2 : ℚ) ≤ 4 ∧ (3 : ℚ) ≤ 6) ∧
    findFirst (fun t => decide ((3 : ℚ) ≤ t)) [(4 : ℚ), 6] = some 0 ∧
    discretize 2 [2, 3] 0 [[2, 4], [4, 6]] = some 2 ∧
    (2 : ℤ) ≠ 0 * 2 ^ 2 + ((0 : ℤ) * 2 ^ 0 + 0 * 2 ^ 1) := by decide

/-- C2 (amended): for a positive `num_steps`, a non-negative position code,
and a threshold table with one row of `num_steps` sorted thresholds per
feature that covers each feature's value, `discretize` succeeds and returns
the mixed-radix encoding `pos * num_steps ^ k + Σ_i col_i * num_steps ^ i`,
where `col_i` is the column of the FIRST ROW-MAJOR OCCURRENCE in the whole
table of the selected threshold (the smallest threshold in feature `i`'s
own row that is `≥` the value) — not necessarily a column within row `i` —
and all digits lie in `[0, num_steps)`, so decoding the state recovers
exactly the `(position, col_0..col_{k-1})` tuple used to construct it. -/
theorem C2_discretize_mixed_radix (ns : ℕ) (features : List ℚ) (pos : ℤ)
    (thr : List (List ℚ))
    (h0 : 0 < ns) (hpos : 0 ≤ pos)
    (hlen : thr.length = features.length)
    (hrows : ∀ row ∈ thr, row.length = ns)
    (_hsorted : ∀ row ∈ thr, List.Sorted (· ≤ ·) row)
    (hcover : ∀ (j : ℕ) (v : ℚ) (row : List ℚ), features[j]? = some v →
      thr[j]? = some row → ∃ t ∈ row, v ≤ t) :
    ∃ cols, binCols thr features 0 = some cols ∧
      cols.length = features.length ∧ (∀ cl ∈ cols, cl < ns) ∧
      discretize ns features pos thr =
        some (pos * (ns : ℤ) ^ features.length + (radixSum ns cols : ℤ)) ∧
      decodeState ns features.length
        (pos * (ns : ℤ) ^ features.length + (radixSum ns cols : ℤ)) = (pos, cols) := by
  obtain ⟨cols, hcols, hclen, hbound⟩ := binCols_spec thr features 0
    (by omega) (by simpa using hcover)
  have hbound2 : ∀ cl ∈ cols, cl < ns := by
    intro cl hcl
    obtain ⟨row2, hrow2, hlt⟩ := hbound cl hcl
    rw [hrows row2 hrow2] at hlt
    exact hlt
  refine ⟨cols, hcols, hclen, hbound2, ?_, ?_⟩
  · rw [discretize, hcols]
    rfl
  · rw [decodeState, ← hclen, decode_encode ns h0 cols pos hpos hbound2,
      encode_ediv_pow ns h0 cols pos hpos hbound2]

/-- C2 (witness): the amended theorem at `num_steps = 2`, features
`[2, 5]`, position code `1`, table `[[2, 4], [5, 6]]`. -/
theorem C2_witness :
    ∃ cols, binCols [[(2 : ℚ), 4], [5, 6]] [2, 5] 0 = some cols ∧
      cols.length = 2 ∧ (∀ cl ∈ cols, cl < 2) ∧
      discretize 2 [2, 5] 1 [[2, 4], [5, 6]] =
        some (1 * (2 : ℤ) ^ 2 + (radixSum 2 cols : ℤ)) ∧
      decodeState 2 2 (1 * (2 : ℤ) ^ 2 + (radixSum 2 cols : ℤ)) = (1, cols) := by
  apply C2_discretize_mixed_radix 2 [2, 5] 1 [[2, 4], [5, 6]]
    (by norm_num) (by norm_num) (by simp) ?_ ?_ ?_
  · intro row hrow
    fin_cases hrow <;> simp
  · intro row hrow
    fin_cases hrow <;> decide
  · intro j v row hj hr
    match j with
    | 0 =>
      simp only [List.getElem?_cons_zero, Option.some.injEq] at hj hr
      exact ⟨2, by rw [← hr]; simp, by rw [← hj]⟩
    | 1 =>
      simp only [List.getElem?_cons_succ, List.getElem?_cons_zero,
        Option.some.injEq] at hj hr
      exact ⟨5, by rw [← hr]; simp, by rw [← hj]⟩
    | (n + 2) =>
      simp at hj

/-! ## C5: `get_thresholds` -/

/-- The value recorded for a given `step` of `get_thresholds` on an
already-sorted column (total version used inside proofs). -/
def colThresholdVal (ns s : ℕ) (sorted : List ℚ) (step : ℕ) : ℚ :=
  if step < ns - 1 then sorted.getD ((step + 1) * s) 0
  else sorted.getD (sorted.length - 1) 0

lemma getElem?_getD {l : List ℚ} {i : ℕ} (h : i < l.length) :
    l[i]? = some (l.getD i 0) := by
  rw [List.getElem?_eq_getElem h, List.getD_eq_getElem l 0 h]

lemma sorted_getD_mono {l : List ℚ} (hs : List.Sorted (· ≤ ·) l) {a b : ℕ}
    (hab : a ≤ b) (hb : b < l.length) : l.getD a 0 ≤ l.getD b 0 := by
  rcases eq_or_lt_of_le hab with rfl | hlt
  · exact le_refl _
  · have ha : a < l.length := lt_trans hlt hb
    rw [List.getD_eq_getElem l 0 ha, List.getD_eq_getElem l 0 hb]
    have := List.Sorted.rel_get_of_lt hs
      (show (⟨a, ha⟩ : Fin l.length) < ⟨b, hb⟩ from hlt)
    simpa [List.get_eq_getElem] using this

lemma findFirst_le_of_le_getLast :
    ∀ (row : List ℚ) (v M : ℚ), row.getLast? = some M → v ≤ M →
      ∃ j, findFirst (fun t => decide (v ≤ t)) row = some j ∧ j < row.length := by
  intro row
  induction row with
  | nil => intro v M h _; simp at h
  | cons t ts ih =>
    intro v M hM hvM
    by_cases hvt : v ≤ t
    · exact ⟨0, by simp [findFirst, hvt], by simp⟩
    · cases ts with
      | nil =>
        rw [List.getLast?_singleton] at hM
        injection hM with hM
        exact absurd (hM ▸ hvM) hvt
      | cons t2 ts2 =>
        rw [List.getLast?_cons_cons] at hM
        obtain ⟨j, hj, hjl⟩ := ih v M hM hvM
        refine ⟨j + 1, ?_, ?_⟩
        · rw [findFirst, if_neg (by simpa using hvt), hj]
          rfl
        · simp only [List.length_cons] at hjl ⊢
          omega

lemma allSome_of_forall_some {α β : Type} (f : α → Option β) :
    ∀ l : List α, (∀ a ∈ l, ∃ b, f a = some b) →
      ∃ xs, allSome (l.map f) = some xs ∧ xs.length = l.length ∧
        ∀ (j : ℕ) (a : α) (b : β), l[j]? = some a → xs[j]? = some b →
          f a = some b := by
  intro l
  induction l with
  | nil =>
    intro _
    refine ⟨[], rfl, rfl, ?_⟩
    intro j a b hj
    simp at hj
  | cons a l2 ih =>
    intro h
    obtain ⟨b, hb⟩ := h a (List.mem_cons_self a l2)
    obtain ⟨xs2, hxs2, hlen2, hpt⟩ := ih (fun x hx => h x (List.mem_cons_of_mem a hx))
    refine ⟨b :: xs2, ?_, by simp [hlen2], ?_⟩
    · simp only [List.map_cons, allSome, hb, hxs2, Option.map_some']
    · intro j a2 b2 hj hb2
      cases j with
      | zero =>
        simp only [List.getElem?_cons_zero, Option.some.injEq] at hj hb2
        rw [← hj, ← hb2]
        exact hb
      | succ j2 =>
        simp only [List.getElem?_cons_succ] at hj hb2
        exact hpt j2 a2 b2 hj hb2

lemma colThresholds_spec (ns s n : ℕ) (col : List ℚ)
    (hn : col.length = n) (hns : 1 ≤ ns) (hidx : (ns - 1) * s < n) :
    ∃ row, colThresholds ns s col = some row ∧
      row.length = ns ∧ List.Sorted (· ≤ ·) row ∧
      (∃ M, row.getLast? = some M ∧ M ∈ col ∧ ∀ v ∈ col, v ≤ M) ∧
      (∀ v ∈ col, ∃ j, findFirst (fun t => decide (v ≤ t)) row = some j ∧ j < ns) := by
  have hn0 : 0 < n := by omega
  set sorted := col.insertionSort (· ≤ ·) with hsorteddef
  have hperm : sorted.Perm col := by
    rw [hsorteddef]
    exact List.perm_insertionSort _ col
  have hssorted : List.Sorted (· ≤ ·) sorted := List.sorted_insertionSort (· ≤ ·) col
  clear_value sorted
  have hslen : sorted.length = col.length := hperm.length_eq
  have hlast_lt : sorted.length - 1 < sorted.length := by rw [hslen, hn]; omega
  have hmid_le : ∀ step : ℕ, step < ns - 1 → (step + 1) * s < sorted.length := by
    intro step hlt
    rw [hslen, hn]
    have h2 : (step + 1) * s ≤ (ns - 1) * s := Nat.mul_le_mul_right s (by omega)
    omega
  have hint : ∀ step ∈ List.range ns,
      (if step < ns - 1 then sorted[(step + 1) * s]?
        else sorted[sorted.length - 1]?) =
      some (colThresholdVal ns s sorted step) := by
    intro step hstep
    by_cases hlt : step < ns - 1
    · rw [if_pos hlt, getElem?_getD (hmid_le step hlt), colThresholdVal, if_pos hlt]
    · rw [if_neg hlt, getElem?_getD hlast_lt, colThresholdVal, if_neg hlt]
  have hmap := allSome_map_of_forall _ (colThresholdVal ns s sorted)
    (List.range ns) hint
  have hmono : ∀ a b : ℕ, a < b →
      colThresholdVal ns s sorted a ≤ colThresholdVal ns s sorted b := by
    intro a b hab
    by_cases hb : b < ns - 1
    · have ha : a < ns - 1 := by omega
      rw [colThresholdVal, colThresholdVal, if_pos ha, if_pos hb]
      exact sorted_getD_mono hssorted (Nat.mul_le_mul_right s (by omega))
        (hmid_le b hb)
    · rw [colThresholdVal, colThresholdVal, if_neg hb]
      by_cases ha : a < ns - 1
      · rw [if_pos ha]
        refine sorted_getD_mono hssorted ?_ hlast_lt
        have h2 : (a + 1) * s ≤ (ns - 1) * s := Nat.mul_le_mul_right s (by omega)
        rw [hslen, hn]
        omega
      · rw [if_neg ha]
  have hlastval : ((List.range ns).map (colThresholdVal ns s sorted)).getLast? =
      some (sorted.getD (sorted.length - 1) 0) := by
    rw [List.getLast?_eq_getElem?, List.getElem?_map]
    have hlen : ((List.range ns).map (colThresholdVal ns s sorted)).length = ns := by
      simp
    rw [hlen, List.getElem?_range (by omega : ns - 1 < ns)]
    have hval : colThresholdVal ns s sorted (ns - 1) =
        sorted.getD (sorted.length - 1) 0 := by
      rw [colThresholdVal, if_neg (by omega)]
    simp [hval]
  have hMmem : sorted.getD (sorted.length - 1) 0 ∈ col := by
    rw [List.getD_eq_getElem sorted 0 hlast_lt]
    exact hperm.mem_iff.mp (List.getElem_mem hlast_lt)
  have hMmax : ∀ v ∈ col, v ≤ sorted.getD (sorted.length - 1) 0 := by
    intro v hv
    have hv2 : v ∈ sorted := hperm.mem_iff.mpr hv
    obtain ⟨i, hi, hvi⟩ := List.getElem_of_mem hv2
    have hieq : sorted.getD i 0 = v := by rw [List.getD_eq_getElem sorted 0 hi, hvi]
    rw [← hieq]
    exact sorted_getD_mono hssorted (by omega) hlast_lt
  refine ⟨(List.range ns).map (colThresholdVal ns s sorted), ?_, by simp, ?_, ?_, ?_⟩
  · simp only [colThresholds, ← hsorteddef]
    exact hmap
  · rw [List.Sorted, List.pairwise_map]
    exact List.Pairwise.imp (fun hab => hmono _ _ hab) (List.pairwise_lt_range ns)
  · exact ⟨sorted.getD (sorted.length - 1) 0, hlastval, hMmem, hMmax⟩
  · intro v hv
    obtain ⟨j, hj, hjl⟩ := findFirst_le_of_le_getLast
      ((List.range ns).map (colThresholdVal ns s sorted)) v
      (sorted.getD (sorted.length - 1) 0) hlastval (hMmax v hv)
    refine ⟨j, hj, ?_⟩
    simpa using hjl

/-- C5 (counterexample): 15 samples (non-empty, not divisible by
`num_steps = 10`) make `step_size = round(1.5) = 2`, so the intermediate
quantile index `(8 + 1) * 2 = 18` is out of range and `get_thresholds`
raises `IndexError` (modelled as `none`) instead of returning ten
thresholds. -/
theorem C5_counterexample :
    ([(0 : ℚ), 1, 2, 3, 4, 5, 6, 7, 8, 9, 10, 11, 12, 13, 14] : List ℚ) ≠ [] ∧
    (15 : ℕ) % 10 ≠ 0 ∧ pyRound 15 10 = 2 ∧
    get_thresholds [[(0 : ℚ), 1, 2, 3, 4, 5, 6, 7, 8, 9, 10, 11, 12, 13, 14]] 10 15 =
      none := by decide

/-- C5 (amended): for `num_steps ≥ 1` and feature columns of `n` values
with every intermediate quantile index in range — `(num_steps - 1) *
round(n / num_steps) < n`, which fails e.g. for 15 samples with ten steps —
`get_thresholds` returns exactly `num_steps` thresholds per feature,
non-decreasing within each feature, with the last threshold equal to the
maximum observed value of that feature, and every sample value of the
feature falls into some bin in `[0, num_steps)` (the last bin absorbing the
remainder). -/
theorem C5_get_thresholds_bins (cols : List (List ℚ)) (ns n : ℕ)
    (hns : 1 ≤ ns) (hcols : ∀ col ∈ cols, col.length = n)
    (hidx : (ns - 1) * pyRound n ns < n) :
    ∃ tbl, get_thresholds cols ns n = some tbl ∧ tbl.length = cols.length ∧
      ∀ (j : ℕ) (col row : List ℚ), cols[j]? = some col → tbl[j]? = some row →
        row.length = ns ∧ List.Sorted (· ≤ ·) row ∧
        (∃ M, row.getLast? = some M ∧ M ∈ col ∧ ∀ v ∈ col, v ≤ M) ∧
        (∀ v ∈ col, ∃ j2, findFirst (fun t => decide (v ≤ t)) row = some j2 ∧
          j2 < ns) := by
  have hex : ∀ col ∈ cols, ∃ row, colThresholds ns (pyRound n ns) col = some row :=
    fun col hc => ((colThresholds_spec ns (pyRound n ns) n col (hcols col hc)
      hns hidx).imp (fun _ h => h.1))
  obtain ⟨tbl, htbl, hlen, hpt⟩ :=
    allSome_of_forall_some (colThresholds ns (pyRound n ns)) cols hex
  refine ⟨tbl, ?_, hlen, ?_⟩
  · rw [get_thresholds, if_neg (by omega)]
    exact htbl
  · intro j col row hj hr
    have hcol : colThresholds ns (pyRound n ns) col = some row := hpt j col row hj hr
    have hcmem : col ∈ cols := List.getElem?_mem hj
    obtain ⟨row2, hrow2, hprops⟩ := colThresholds_spec ns (pyRound n ns) n col
      (hcols col hcmem) hns hidx
    rw [hcol] at hrow2
    injection hrow2 with hrow2
    rw [hrow2]
    exact hprops

/-- C5 (witness): the amended theorem at one feature column `[3, 1, 2, 5]`
(`n = 4`) with `num_steps = 2`: `step_size = round(4/2) = 2`, the table is
`[[3, 5]]` — two non-decreasing thresholds ending at the maximum `5` — and
every value falls into a bin below `2`. -/
theorem C5_witness :
    ∃ tbl, get_thresholds [[(3 : ℚ), 1, 2, 5]] 2 4 = some tbl ∧
      tbl.length = 1 ∧
      ∀ (j : ℕ) (col row : List ℚ),
        ([[(3 : ℚ), 1, 2, 5]] : List (List ℚ))[j]? = some col →
        tbl[j]? = some row →
        row.length = 2 ∧ List.Sorted (· ≤ ·) row ∧
        (∃ M, row.getLast? = some M ∧ M ∈ col ∧ ∀ v ∈ col, v ≤ M) ∧
        (∀ v ∈ col, ∃ j2, findFirst (fun t => decide (v ≤ t)) row = some j2 ∧
          j2 < 2) :=
  C5_get_thresholds_bins [[(3 : ℚ), 1, 2, 5]] 2 4 (by norm_num)
    (by intro col hc; fin_cases hc; rfl) (by decide)

end RLCourse
